import Mathlib

/-!
Verification of the inventory system's in-process sort/search core:
the polymorphic comparator `compareByKey`, the non-mutating `quickSort`
(last-element pivot, ties to the low bucket), the exact-match
`binarySearch`, and the `searchProduct` controller's input handling.

The JS source is embedded shallowly:
* JS field values become the sum type `Value`; a number is a finite value
  (modeled as an integer — the core only uses its ordering) or IEEE NaN,
  whose every comparison is false;
* JS objects become association lists (`Record`);
* JS strings are compared through their character lists (`lexLt`), which
  is the same lexicographic code-unit order JS `<` uses;
* the two non-structural recursions (`quickSort`, the `while` loop of
  `binarySearch`) take an explicit fuel argument; enough fuel is always
  available, and the result is fuel-independent (proved below).
-/

/-- A JS number as the comparator sees one: a finite value (modeled as an
integer, since the core only uses its ordering) or IEEE NaN. `typeof` is
"number" for both. -/
inductive JsNum where
  | fin : Int → JsNum
  | nan : JsNum
deriving DecidableEq, Repr

/-- JS `<` on two numbers: the usual order on finite values; every
comparison involving NaN is false. -/
def JsNum.lt : JsNum → JsNum → Bool
  | .fin x, .fin y => x < y
  | _, _ => false

/-- A JS field value as the core sees one: a number (possibly NaN), a
string, or null/undefined (`Value.null` also stands for a missing field,
since `compareByKey` treats `null`, `undefined` and a missing key alike). -/
inductive Value where
  | num : JsNum → Value
  | str : String → Value
  | null : Value
deriving DecidableEq, Repr

/-- A product record: a JS object, modeled as an association list from
field names to values (first binding wins; JS object keys are unique). -/
abbrev Record := List (String × Value)

/-- Reading `r?.[key]`: the field's value, `null` when absent. -/
def getField (r : Record) (key : String) : Value :=
  (r.lookup key).getD .null

/-- JS `String(v ?? "")` for the values the model covers: numbers print in
decimal, strings pass through, null/undefined give the empty string. -/
def jsString : Value → String
  | .num (.fin n) => toString n
  | .num .nan => "NaN"
  | .str s => s
  | .null => ""

/-- JS `<` on strings: lexicographic comparison of code units, modeled on
the character lists of the two strings. -/
def lexLt : List Char → List Char → Bool
  | [], [] => false
  | [], _ :: _ => true
  | _ :: _, [] => false
  | a :: s, b :: t =>
    if a < b then true
    else if b < a then false
    else lexLt s t

/-- The normalization `String(v ?? "").toLowerCase()` applied by the
comparator's text branch, as a character list. -/
def foldedText (v : Value) : List Char :=
  (jsString v).data.map Char.toLower

/-- Whether a value is a JS number (`typeof v === "number"`); NaN is a
number. -/
def Value.isNum : Value → Bool
  | .num _ => true
  | _ => false

/-- Whether a value is a JS number other than NaN. -/
def Value.isFinNum : Value → Bool
  | .num (.fin _) => true
  | _ => false

/-- `compareByKey(a, b, key)` (src/utils/compareByKey.js): if both raw
values are numbers, compare arithmetically; otherwise compare the
lowercased string coercions lexicographically; -1 / 0 / 1. -/
def compareByKey (a b : Record) (key : String) : Int :=
  let va := getField a key
  let vb := getField b key
  match va, vb with
  | .num x, .num y =>
    if JsNum.lt x y then -1 else if JsNum.lt y x then 1 else 0
  | _, _ =>
    let sa := foldedText va
    let sb := foldedText vb
    if lexLt sa sb then -1 else if lexLt sb sa then 1 else 0

/-- The sort direction. The controller validates `order ∈ {"asc","desc"}`
before calling the sort, so only these two reach the core. -/
inductive SortOrder where
  | asc
  | desc
deriving DecidableEq, Repr

/-- The bucket test `order === "asc" ? cmp <= 0 : cmp >= 0` of the
partition loop. -/
def goesLeft (ord : SortOrder) (cmp : Int) : Bool :=
  match ord with
  | .asc => cmp ≤ 0
  | .desc => cmp ≥ 0

/-- The `left` bucket of `quickSort`'s partition loop: the elements before
the pivot (the last element) whose comparison sends them left. -/
def partLeft (arr : List Record) (key : String) (ord : SortOrder) : List Record :=
  arr.dropLast.filter fun x => goesLeft ord (compareByKey x (arr.getLastD []) key)

/-- The `right` bucket of `quickSort`'s partition loop. -/
def partRight (arr : List Record) (key : String) (ord : SortOrder) : List Record :=
  arr.dropLast.filter fun x => !goesLeft ord (compareByKey x (arr.getLastD []) key)

/-- `quickSort(arr, key, order)` (src/utils/quicksort.js) with an explicit
fuel argument making the recursion structural; `arr.length` fuel always
suffices, and the result is fuel-independent above that (see
`quickSortF_congr`). Base case: length ≤ 1 returns a copy of the input.
Otherwise the last element is the pivot and the result is
`sort(left) ++ pivot :: sort(right)`. -/
def quickSortF (fuel : Nat) (arr : List Record) (key : String) (ord : SortOrder) :
    List Record :=
  match fuel with
  | 0 => arr
  | fuel + 1 =>
    if arr.length ≤ 1 then arr
    else
      quickSortF fuel (partLeft arr key ord) key ord
        ++ arr.getLastD [] :: quickSortF fuel (partRight arr key ord) key ord

/-- `quickSort` on a record array (fuel instantiated to the length). -/
def quickSort (arr : List Record) (key : String) (ord : SortOrder) : List Record :=
  quickSortF arr.length arr key ord

/-- A JS argument passed to `quickSort`: a record array, or any non-array
value (`Array.isArray(arr)` false). -/
inductive SortInput where
  | arr : List Record → SortInput
  | notArray : SortInput

/-- `quickSort` including the `if (!Array.isArray(arr)) return []` guard. -/
def quickSortJS : SortInput → String → SortOrder → List Record
  | .arr l, key, ord => quickSort l key ord
  | .notArray, _, _ => []

/-- `Math.floor((left + right) / 2)`; on the nonnegative indices the loop
reaches, integer division by 2 is exactly the floored midpoint. -/
def bsMid (left right : Int) : Int :=
  (left + right) / 2

/-- A JS array read `arr[i]`: an out-of-range read gives `undefined`, and
every field of `undefined` reads back `undefined`, so the empty record
models it exactly for the comparator's purposes. -/
def jsIndex (L : List Record) (i : Int) : Record :=
  if h : 0 ≤ i ∧ i.toNat < L.length then L.get ⟨i.toNat, h.2⟩ else []

/-- The probe object `{[key]: value}` built by `binarySearch`. -/
def probeOf (key : String) (v : Value) : Record := [(key, v)]

/-- The `while (left <= right)` loop of `binarySearch`, fuel-structural:
compare the midpoint record with the probe; on 0 return it, on < 0 search
the upper half, otherwise the lower half. -/
def bsAux (L : List Record) (key : String) (probe : Record) :
    Nat → Int → Int → Option Record
  | 0, _, _ => none
  | fuel + 1, left, right =>
    if left ≤ right then
      let mid := bsMid left right
      let cmp := compareByKey (jsIndex L mid) probe key
      if cmp = 0 then some (jsIndex L mid)
      else if cmp < 0 then bsAux L key probe fuel (mid + 1) right
      else bsAux L key probe fuel left (mid - 1)
    else none

/-- `binarySearch(arr, key, value)` (src/utils/binarySearch.js): search the
window `[0, arr.length - 1]`; `none` is the "not found" signal (`null`).
The loop halves the window each iteration, so `length + 1` fuel always
suffices (fuel-independence is proved below). -/
def binarySearch (L : List Record) (key : String) (v : Value) : Option Record :=
  bsAux L key (probeOf key v) (L.length + 1) 0 ((L.length : Int) - 1)

/-- A heap of JS arrays, for stating the non-mutation contract: an array
is an allocation index into the heap. -/
abbrev Heap := List (List Record)

/-- Reading an array's contents from the heap. -/
def Heap.read (h : Heap) (i : Nat) : List Record := h.getD i []

/-- Allocating a fresh array: the new id is the old heap size. -/
def Heap.alloc (h : Heap) (contents : List Record) : Heap × Nat :=
  (h ++ [contents], h.length)

/-- `quickSort` against the heap model. Every array the function creates —
`arr.slice()`, the `left`/`right` buckets (which JS fills by `push` on
freshly allocated arrays), and the final spread `[...low, pivot, ...high]` —
is a new allocation; the input array is only ever read, never written. -/
def quickSortH (fuel : Nat) (h : Heap) (arrId : Nat) (key : String)
    (ord : SortOrder) : Heap × Nat :=
  match fuel with
  | 0 => h.alloc (h.read arrId)
  | fuel + 1 =>
    let arr := h.read arrId
    if arr.length ≤ 1 then h.alloc arr
    else
      let a₁ := h.alloc (partLeft arr key ord)
      let a₂ := a₁.1.alloc (partRight arr key ord)
      let s₁ := quickSortH fuel a₂.1 a₁.2 key ord
      let s₂ := quickSortH fuel s₁.1 a₂.2 key ord
      s₂.1.alloc (s₂.1.read s₁.2 ++ arr.getLastD [] :: s₂.1.read s₂.2)

/-- A controller response: 400, 404, or 200 with the found record. -/
inductive ApiResult where
  | badRequest : String → ApiResult
  | notFound : String → ApiResult
  | ok : Record → ApiResult
deriving DecidableEq, Repr

/-- The allow-list of sortable/searchable fields. -/
def validKeys : List String := ["name", "category", "price", "quantity"]

/-- `searchProduct` (src/controllers/productController.js), the part after
the records `items` have been fetched. `parseNum` abstracts the JS
`Number(value)` coercion combined with the `Number.isNaN` test (`none`
plays NaN); the claims proved about the controller hold for every parser. -/
def searchProduct (parseNum : String → Option Int) (key value : String)
    (items : List Record) : ApiResult :=
  if key ∉ validKeys then
    .badRequest "Invalid search key. Use one of: name, category, price, quantity"
  else
    match (if key ∈ ["price", "quantity"] then
             (parseNum value).map (fun n => Value.num (JsNum.fin n))
           else some (.str value)) with
    | none => .badRequest (key ++ " must be a number")
    | some searchValue =>
      match binarySearch (quickSort items key .asc) key searchValue with
      | none => .notFound "Product not found"
      | some found => .ok found

/-- Numeric sort key of a record (meaningful on records whose value under
`key` is a number). -/
def numRank (key : String) (r : Record) : Int :=
  match getField r key with
  | .num (.fin n) => n
  | _ => 0

/-- Text sort key of a record: the comparator's lowercased coercion. -/
def textRank (key : String) (r : Record) : List Char :=
  foldedText (getField r key)

/-- A concrete integer parser standing in for JS `Number` when the
controller theorems are instantiated on concrete inputs. -/
def intParse (s : String) : Option Int :=
  match s.data with
  | [] => none
  | ds =>
    if ds.all Char.isDigit then
      some (ds.foldl (fun acc c => 10 * acc + ((c.toNat : Int) - 48)) 0)
    else none

-- Sanity checks on concrete inputs (mirroring the repo's unit tests).
example :
    quickSort [[("name", .str "banana")], [("name", .str "Apple")],
      [("name", .str "carrot")], [("name", .str "apple")]] "name" .asc
    = [[("name", .str "Apple")], [("name", .str "apple")],
      [("name", .str "banana")], [("name", .str "carrot")]] := by decide

example :
    quickSort [[("price", .num (.fin 10))], [("price", .num (.fin 5))], [("price", .num (.fin 20))],
      [("price", .num (.fin 20))]] "price" .desc
    = [[("price", .num (.fin 20))], [("price", .num (.fin 20))], [("price", .num (.fin 10))],
      [("price", .num (.fin 5))]] := by decide

example :
    binarySearch [[("price", .num (.fin 1))], [("price", .num (.fin 2))], [("price", .num (.fin 3))]]
      "price" (.num (.fin 4)) = none := by decide

example :
    binarySearch [[("price", .num (.fin 1))], [("price", .num (.fin 2))], [("price", .num (.fin 3))]]
      "price" (.num (.fin 2)) = some [("price", .num (.fin 2))] := by decide

-- NaN semantics, traced against the JS code: NaN is a number, every
-- comparison with it returns 0 (ties go left), `String(NaN)` is "NaN".
example :
    compareByKey [("price", .num .nan)] (probeOf "price" (.num (.fin 2))) "price"
      = 0 := by decide

example :
    quickSort [[("price", .num (.fin 1))], [("price", .num (.fin 3))],
      [("price", .num .nan)]] "price" .asc
    = [[("price", .num (.fin 1))], [("price", .num (.fin 3))],
      [("price", .num .nan)]] := by decide

-- A NaN record is comparator-equal to the probe 2 yet the search misses
-- it: this is why the search-correctness claim must exclude NaN.
example :
    binarySearch (quickSort [[("price", .num (.fin 1))], [("price", .num (.fin 3))],
      [("price", .num .nan)]] "price" .asc) "price" (.num (.fin 2)) = none := by decide

-- Idempotence, by contrast, survives NaN (claim6 is proved for all
-- numeric collections, NaN included).
example :
    quickSort (quickSort [[("price", .num (.fin 3))], [("price", .num .nan)],
      [("price", .num (.fin 1))]] "price" .asc) "price" .asc
    = quickSort [[("price", .num (.fin 3))], [("price", .num .nan)],
      [("price", .num (.fin 1))]] "price" .asc := by decide

example :
    quickSort (quickSort [[("price", .num (.fin 1))], [("price", .num .nan)],
      [("price", .num (.fin 2))], [("price", .num .nan)]] "price" .asc) "price" .asc
    = quickSort [[("price", .num (.fin 1))], [("price", .num .nan)],
      [("price", .num (.fin 2))], [("price", .num .nan)]] "price" .asc := by decide

/-! Basic facts about the string order and the comparator. -/

theorem lexLt_iff_lt : ∀ s t : List Char, lexLt s t = true ↔ s < t := by
  intro s
  induction s with
  | nil =>
    intro t
    cases t with
    | nil => exact iff_of_false (by simp [lexLt]) (fun h => by cases h)
    | cons b t => exact iff_of_true (by simp [lexLt]) (List.nil_lt_cons b t)
  | cons a s ih =>
    intro t
    cases t with
    | nil => exact iff_of_false (by simp [lexLt]) (fun h => by cases h)
    | cons b t =>
      simp only [lexLt]
      rcases lt_trichotomy a b with hab | hab | hab
      · rw [if_pos hab]
        exact iff_of_true rfl (List.Lex.rel hab)
      · subst hab
        rw [if_neg (lt_irrefl a), if_neg (lt_irrefl a)]
        rw [ih t]
        constructor
        · exact fun h => List.Lex.cons h
        · intro h
          cases h with
          | cons h => exact h
          | rel h => exact absurd h (lt_irrefl a)
      · rw [if_neg (not_lt_of_gt hab), if_pos hab]
        refine iff_of_false (fun h => by cases h) ?_
        intro h
        cases h with
        | cons h' => exact absurd rfl (ne_of_gt hab)
        | rel h' => exact absurd h' (not_lt_of_gt hab)

theorem lexLt_eq_false_iff (s t : List Char) : lexLt s t = false ↔ t ≤ s := by
  rw [← not_lt]
  constructor
  · intro h hc
    rw [← lexLt_iff_lt, h] at hc
    cases hc
  · intro h
    cases hlt : lexLt s t with
    | false => rfl
    | true => exact absurd ((lexLt_iff_lt s t).mp hlt) h

theorem intCmp_le_iff (x y : Int) :
    ((if x < y then (-1 : Int) else if y < x then 1 else 0) ≤ 0 ↔ x ≤ y) := by
  split_ifs with h1 h2
  · exact iff_of_true (by decide) (by omega)
  · exact iff_of_false (by decide) (by omega)
  · exact iff_of_true (by decide) (by omega)

theorem intCmp_eq_iff (x y : Int) :
    ((if x < y then (-1 : Int) else if y < x then 1 else 0) = 0 ↔ x = y) := by
  split_ifs with h1 h2
  · exact iff_of_false (by decide) (by omega)
  · exact iff_of_false (by decide) (by omega)
  · exact iff_of_true rfl (by omega)

theorem intCmp_antisymm (x y : Int) :
    (if x < y then (-1 : Int) else if y < x then 1 else 0)
      = -(if y < x then (-1 : Int) else if x < y then 1 else 0) := by
  split_ifs <;> omega

theorem numCmp_fin_fin (x y : Int) :
    (if JsNum.lt (.fin x) (.fin y) then (-1 : Int)
     else if JsNum.lt (.fin y) (.fin x) then 1 else 0)
      = (if x < y then (-1 : Int) else if y < x then 1 else 0) := by
  simp only [JsNum.lt, decide_eq_true_eq]

theorem numCmp_antisymm (x y : JsNum) :
    (if JsNum.lt x y then (-1 : Int) else if JsNum.lt y x then 1 else 0)
      = -(if JsNum.lt y x then (-1 : Int) else if JsNum.lt x y then 1 else 0) := by
  cases x with
  | nan => simp [JsNum.lt]
  | fin a =>
    cases y with
    | nan => simp [JsNum.lt]
    | fin b =>
      rw [numCmp_fin_fin, numCmp_fin_fin]
      exact intCmp_antisymm a b

theorem numCmp_nan {x y : JsNum} (h : x = .nan ∨ y = .nan) :
    (if JsNum.lt x y then (-1 : Int) else if JsNum.lt y x then 1 else 0) = 0 := by
  rcases h with h | h <;> subst h
  · cases y <;> simp [JsNum.lt]
  · cases x <;> simp [JsNum.lt]

theorem textCmp_le_iff (s t : List Char) :
    ((if lexLt s t then (-1 : Int) else if lexLt t s then 1 else 0) ≤ 0 ↔ s ≤ t) := by
  split_ifs with h1 h2
  · exact iff_of_true (by decide) (le_of_lt ((lexLt_iff_lt s t).mp h1))
  · exact iff_of_false (by decide) (not_le.mpr ((lexLt_iff_lt t s).mp h2))
  · exact iff_of_true le_rfl ((lexLt_eq_false_iff t s).mp (Bool.of_not_eq_true h2))

theorem textCmp_eq_iff (s t : List Char) :
    ((if lexLt s t then (-1 : Int) else if lexLt t s then 1 else 0) = 0 ↔ s = t) := by
  split_ifs with h1 h2
  · exact iff_of_false (by decide) (ne_of_lt ((lexLt_iff_lt s t).mp h1))
  · exact iff_of_false (by decide) (ne_of_gt ((lexLt_iff_lt t s).mp h2))
  · refine iff_of_true rfl ?_
    exact le_antisymm
      ((lexLt_eq_false_iff t s).mp (Bool.of_not_eq_true h2))
      ((lexLt_eq_false_iff s t).mp (Bool.of_not_eq_true h1))

theorem textCmp_antisymm (s t : List Char) :
    (if lexLt s t then (-1 : Int) else if lexLt t s then 1 else 0)
      = -(if lexLt t s then (-1 : Int) else if lexLt s t then 1 else 0) := by
  cases h1 : lexLt s t <;> cases h2 : lexLt t s
  · simp [h1, h2]
  · simp [h1, h2]
  · simp [h1, h2]
  · exact absurd ((lexLt_iff_lt t s).mp h2) (asymm ((lexLt_iff_lt s t).mp h1))

theorem isNum_true_iff (v : Value) : v.isNum = true ↔ ∃ m : JsNum, v = .num m := by
  cases v <;> simp [Value.isNum]

theorem isFinNum_true_iff (v : Value) :
    v.isFinNum = true ↔ ∃ n : Int, v = .num (.fin n) := by
  cases v with
  | num m => cases m <;> simp [Value.isFinNum]
  | str s => simp [Value.isFinNum]
  | null => simp [Value.isFinNum]

theorem compareByKey_num_num {a b : Record} {key : String} {x y : JsNum}
    (ha : getField a key = .num x) (hb : getField b key = .num y) :
    compareByKey a b key
      = if JsNum.lt x y then -1 else if JsNum.lt y x then 1 else 0 := by
  simp only [compareByKey, ha, hb]

theorem compareByKey_fin_fin {a b : Record} {key : String} {x y : Int}
    (ha : getField a key = .num (.fin x)) (hb : getField b key = .num (.fin y)) :
    compareByKey a b key = if x < y then -1 else if y < x then 1 else 0 := by
  rw [compareByKey_num_num ha hb, numCmp_fin_fin]

theorem compareByKey_text {a b : Record} {key : String}
    (h : (getField a key).isNum = false ∨ (getField b key).isNum = false) :
    compareByKey a b key =
      if lexLt (foldedText (getField a key)) (foldedText (getField b key)) then -1
      else if lexLt (foldedText (getField b key)) (foldedText (getField a key)) then 1
      else 0 := by
  rcases hva : getField a key with x | s | _ <;>
    rcases hvb : getField b key with y | t | _ <;>
      simp_all [compareByKey, Value.isNum]

theorem compareByKey_antisymm (a b : Record) (key : String) :
    compareByKey a b key = - compareByKey b a key := by
  by_cases hab : (getField a key).isNum = true ∧ (getField b key).isNum = true
  · obtain ⟨x, hx⟩ := (isNum_true_iff _).mp hab.1
    obtain ⟨y, hy⟩ := (isNum_true_iff _).mp hab.2
    rw [compareByKey_num_num hx hy, compareByKey_num_num hy hx]
    exact numCmp_antisymm x y
  · have h' : (getField a key).isNum = false ∨ (getField b key).isNum = false := by
      cases ha : (getField a key).isNum <;> cases hb : (getField b key).isNum <;> simp_all
    rw [compareByKey_text h', compareByKey_text (Or.symm h')]
    exact textCmp_antisymm _ _

theorem compareByKey_vals (a b : Record) (key : String) :
    compareByKey a b key = -1 ∨ compareByKey a b key = 0 ∨ compareByKey a b key = 1 := by
  by_cases hab : (getField a key).isNum = true ∧ (getField b key).isNum = true
  · obtain ⟨x, hx⟩ := (isNum_true_iff _).mp hab.1
    obtain ⟨y, hy⟩ := (isNum_true_iff _).mp hab.2
    rw [compareByKey_num_num hx hy]
    split_ifs <;> simp
  · have h' : (getField a key).isNum = false ∨ (getField b key).isNum = false := by
      cases ha : (getField a key).isNum <;> cases hb : (getField b key).isNum <;> simp_all
    rw [compareByKey_text h']
    split_ifs <;> simp

/-! Structural facts about the partition and the sort. -/

theorem getLastD_mem {arr : List Record} (h : arr ≠ []) (d : Record) :
    arr.getLastD d ∈ arr := by
  rw [List.getLastD_eq_getLast?, List.getLast?_eq_getLast arr h, Option.getD_some]
  exact List.getLast_mem h

theorem dropLast_append_getLastD {arr : List Record} (h : arr ≠ []) (d : Record) :
    arr.dropLast ++ [arr.getLastD d] = arr := by
  rw [List.getLastD_eq_getLast?, List.getLast?_eq_getLast arr h, Option.getD_some]
  exact List.dropLast_append_getLast h

theorem mem_of_mem_partLeft {x : Record} {arr : List Record} {key : String}
    {ord : SortOrder} (h : x ∈ partLeft arr key ord) : x ∈ arr :=
  List.mem_of_mem_dropLast (List.mem_of_mem_filter h)

theorem mem_of_mem_partRight {x : Record} {arr : List Record} {key : String}
    {ord : SortOrder} (h : x ∈ partRight arr key ord) : x ∈ arr :=
  List.mem_of_mem_dropLast (List.mem_of_mem_filter h)

theorem goesLeft_of_mem_partLeft {x : Record} {arr : List Record} {key : String}
    {ord : SortOrder} (h : x ∈ partLeft arr key ord) :
    goesLeft ord (compareByKey x (arr.getLastD []) key) = true :=
  (List.mem_filter.mp h).2

theorem not_goesLeft_of_mem_partRight {x : Record} {arr : List Record} {key : String}
    {ord : SortOrder} (h : x ∈ partRight arr key ord) :
    goesLeft ord (compareByKey x (arr.getLastD []) key) = false := by
  have := (List.mem_filter.mp h).2
  simpa using this

theorem partLeft_length_le (arr : List Record) (key : String) (ord : SortOrder) :
    (partLeft arr key ord).length ≤ arr.length - 1 := by
  have h := List.length_filter_le
    (fun x => goesLeft ord (compareByKey x (arr.getLastD []) key)) arr.dropLast
  simpa [partLeft, List.length_dropLast] using h

theorem partRight_length_le (arr : List Record) (key : String) (ord : SortOrder) :
    (partRight arr key ord).length ≤ arr.length - 1 := by
  have h := List.length_filter_le
    (fun x => !goesLeft ord (compareByKey x (arr.getLastD []) key)) arr.dropLast
  simpa [partRight, List.length_dropLast] using h

theorem partLeft_append_partRight_perm (arr : List Record) (key : String)
    (ord : SortOrder) :
    (partLeft arr key ord ++ partRight arr key ord).Perm arr.dropLast :=
  List.filter_append_perm _ _

theorem partLeft_length_add_partRight_length (arr : List Record) (key : String)
    (ord : SortOrder) :
    (partLeft arr key ord).length + (partRight arr key ord).length = arr.length - 1 := by
  have h := (partLeft_append_partRight_perm arr key ord).length_eq
  simpa [List.length_append, List.length_dropLast] using h

theorem quickSortF_congr :
    ∀ fuel₁ fuel₂ (arr : List Record) (key : String) (ord : SortOrder),
      arr.length ≤ fuel₁ → arr.length ≤ fuel₂ →
      quickSortF fuel₁ arr key ord = quickSortF fuel₂ arr key ord := by
  intro fuel₁
  induction fuel₁ with
  | zero =>
    intro fuel₂ arr key ord h₁ h₂
    have harr : arr = [] := List.length_eq_zero.mp (Nat.le_zero.mp h₁)
    subst harr
    cases fuel₂ <;> simp [quickSortF]
  | succ fuel₁ ih =>
    intro fuel₂ arr key ord h₁ h₂
    cases fuel₂ with
    | zero =>
      have harr : arr = [] := List.length_eq_zero.mp (Nat.le_zero.mp h₂)
      subst harr
      simp [quickSortF]
    | succ fuel₂ =>
      simp only [quickSortF]
      by_cases hlen : arr.length ≤ 1
      · rw [if_pos hlen, if_pos hlen]
      · rw [if_neg hlen, if_neg hlen]
        have hL := partLeft_length_le arr key ord
        have hR := partRight_length_le arr key ord
        rw [ih fuel₂ (partLeft arr key ord) key ord (by omega) (by omega),
          ih fuel₂ (partRight arr key ord) key ord (by omega) (by omega)]

theorem quickSort_small {arr : List Record} (key : String) (ord : SortOrder)
    (h : arr.length ≤ 1) : quickSort arr key ord = arr := by
  unfold quickSort
  cases hn : arr.length with
  | zero => simp [quickSortF]
  | succ n =>
    have hn0 : n = 0 := by omega
    subst hn0
    simp only [quickSortF]
    rw [if_pos h]

theorem quickSort_unfold {arr : List Record} (key : String) (ord : SortOrder)
    (h : 2 ≤ arr.length) :
    quickSort arr key ord =
      quickSort (partLeft arr key ord) key ord
        ++ arr.getLastD [] :: quickSort (partRight arr key ord) key ord := by
  unfold quickSort
  obtain ⟨m, hm⟩ : ∃ m, arr.length = m + 1 := ⟨arr.length - 1, by omega⟩
  rw [hm]
  simp only [quickSortF]
  rw [if_neg (by omega)]
  have hL := partLeft_length_le arr key ord
  have hR := partRight_length_le arr key ord
  rw [quickSortF_congr m (partLeft arr key ord).length (partLeft arr key ord) key ord
      (by omega) le_rfl,
    quickSortF_congr m (partRight arr key ord).length (partRight arr key ord) key ord
      (by omega) le_rfl]

theorem quickSortF_perm :
    ∀ (fuel : Nat) (arr : List Record) (key : String) (ord : SortOrder),
      arr.length ≤ fuel → (quickSortF fuel arr key ord).Perm arr := by
  intro fuel
  induction fuel with
  | zero =>
    intro arr key ord h
    have harr : arr = [] := List.length_eq_zero.mp (Nat.le_zero.mp h)
    subst harr
    simp [quickSortF]
  | succ fuel ih =>
    intro arr key ord h
    simp only [quickSortF]
    by_cases hlen : arr.length ≤ 1
    · rw [if_pos hlen]
    · rw [if_neg hlen]
      have hne : arr ≠ [] := by
        intro hc
        subst hc
        simp at hlen
      have hL := partLeft_length_le arr key ord
      have hR := partRight_length_le arr key ord
      have h4 : (arr.dropLast ++ [arr.getLastD []]).Perm arr := by
        rw [dropLast_append_getLastD hne]
      have hcomm : (arr.getLastD [] :: arr.dropLast).Perm
          (arr.dropLast ++ [arr.getLastD []]) := by
        simpa using @List.perm_append_comm _ [arr.getLastD []] arr.dropLast
      exact (List.Perm.append (ih _ key ord (by omega))
          (List.Perm.cons _ (ih _ key ord (by omega)))).trans
        (List.perm_middle.trans
          ((List.Perm.cons _ (partLeft_append_partRight_perm arr key ord)).trans
            (hcomm.trans h4)))

theorem quickSort_perm (arr : List Record) (key : String) (ord : SortOrder) :
    (quickSort arr key ord).Perm arr :=
  quickSortF_perm arr.length arr key ord le_rfl

theorem mem_quickSort {x : Record} {arr : List Record} {key : String}
    {ord : SortOrder} : x ∈ quickSort arr key ord ↔ x ∈ arr :=
  (quickSort_perm arr key ord).mem_iff

/-! The adjacent-pair ordering invariant, for either direction. -/

theorem goesLeft_swap {ord : SortOrder} {c : Int} (h : goesLeft ord c = false) :
    goesLeft ord (-c) = true := by
  cases ord <;> simp [goesLeft] at h ⊢ <;> omega

theorem quickSortF_chain (key : String) (ord : SortOrder) :
    ∀ (fuel : Nat) (arr : List Record), arr.length ≤ fuel →
      List.Chain' (fun x y => goesLeft ord (compareByKey x y key) = true)
        (quickSortF fuel arr key ord) := by
  intro fuel
  induction fuel with
  | zero =>
    intro arr h
    have harr : arr = [] := List.length_eq_zero.mp (Nat.le_zero.mp h)
    subst harr
    simp [quickSortF]
  | succ fuel ih =>
    intro arr h
    simp only [quickSortF]
    by_cases hlen : arr.length ≤ 1
    · rw [if_pos hlen]
      cases arr with
      | nil => simp
      | cons a l =>
        cases l with
        | nil => simp
        | cons b l' => simp at hlen
    · rw [if_neg hlen]
      have hL := partLeft_length_le arr key ord
      have hR := partRight_length_le arr key ord
      rw [List.chain'_append]
      refine ⟨ih _ (by omega), ?_, ?_⟩
      · rw [List.chain'_cons']
        refine ⟨?_, ih _ (by omega)⟩
        intro y hy
        have hymem : y ∈ quickSortF fuel (partRight arr key ord) key ord :=
          List.mem_of_mem_head? hy
        have hyR : y ∈ partRight arr key ord :=
          (quickSortF_perm fuel _ key ord (by omega)).mem_iff.mp hymem
        have hng := not_goesLeft_of_mem_partRight hyR
        rw [compareByKey_antisymm (arr.getLastD []) y key]
        exact goesLeft_swap hng
      · intro x hx y hy
        have hxmem : x ∈ quickSortF fuel (partLeft arr key ord) key ord :=
          List.mem_of_mem_getLast? hx
        have hxL : x ∈ partLeft arr key ord :=
          (quickSortF_perm fuel _ key ord (by omega)).mem_iff.mp hxmem
        have hy' : y = arr.getLastD [] := by
          simp only [List.head?_cons, Option.mem_def, Option.some.injEq] at hy
          exact hy.symm
        subst hy'
        exact goesLeft_of_mem_partLeft hxL

theorem quickSort_chain (arr : List Record) (key : String) (ord : SortOrder) :
    List.Chain' (fun x y => goesLeft ord (compareByKey x y key) = true)
      (quickSort arr key ord) :=
  quickSortF_chain key ord arr.length arr le_rfl

/-! Agreement of the comparator with an abstract linear rank. On a
collection whose values under the sort key are all numbers (or all
non-numbers) the comparator is the pullback of a linear order, which is
what the search-correctness and idempotence arguments need. -/

/-- The comparator agrees with the rank `f` on the pair `(x, y)`. -/
def KeyCoh {α : Type} [LinearOrder α] (f : Record → α) (key : String)
    (x y : Record) : Prop :=
  (compareByKey x y key ≤ 0 ↔ f x ≤ f y) ∧
  (compareByKey x y key = 0 ↔ f x = f y)

theorem KeyCoh.lt_iff {α : Type} [LinearOrder α] {f : Record → α} {key : String}
    {x y : Record} (h : KeyCoh f key x y) :
    (compareByKey x y key < 0 ↔ f x < f y) := by
  constructor
  · intro hc
    refine lt_of_le_of_ne (h.1.mp hc.le) ?_
    intro he
    have := h.2.mpr he
    omega
  · intro hf
    have hle : compareByKey x y key ≤ 0 := h.1.mpr hf.le
    have hne : compareByKey x y key ≠ 0 := fun he => absurd (h.2.mp he) (ne_of_lt hf)
    omega

theorem KeyCoh.pos_iff {α : Type} [LinearOrder α] {f : Record → α} {key : String}
    {x y : Record} (h : KeyCoh f key x y) :
    (0 < compareByKey x y key ↔ f y < f x) := by
  constructor
  · intro hc
    by_contra hnot
    have := h.1.mpr (not_lt.mp hnot)
    omega
  · intro hf
    by_contra hc
    push_neg at hc
    exact absurd (h.1.mp hc) (not_le.mpr hf)

theorem keyCoh_num {key : String} {x y : Record}
    (hx : (getField x key).isFinNum = true) (hy : (getField y key).isFinNum = true) :
    KeyCoh (numRank key) key x y := by
  obtain ⟨a, ha⟩ := (isFinNum_true_iff _).mp hx
  obtain ⟨b, hb⟩ := (isFinNum_true_iff _).mp hy
  constructor
  · rw [compareByKey_fin_fin ha hb]
    simp only [numRank, ha, hb]
    exact intCmp_le_iff a b
  · rw [compareByKey_fin_fin ha hb]
    simp only [numRank, ha, hb]
    exact intCmp_eq_iff a b

theorem keyCoh_text {key : String} {x y : Record}
    (hx : (getField x key).isNum = false) :
    KeyCoh (textRank key) key x y := by
  constructor
  · rw [compareByKey_text (Or.inl hx)]
    exact textCmp_le_iff _ _
  · rw [compareByKey_text (Or.inl hx)]
    exact textCmp_eq_iff _ _

theorem quickSortF_sorted {α : Type} [LinearOrder α] (f : Record → α) (key : String) :
    ∀ (fuel : Nat) (arr : List Record), arr.length ≤ fuel →
      (∀ x ∈ arr, ∀ y ∈ arr, KeyCoh f key x y) →
      (quickSortF fuel arr key .asc).Pairwise (fun x y => f x ≤ f y) := by
  intro fuel
  induction fuel with
  | zero =>
    intro arr h _
    have harr : arr = [] := List.length_eq_zero.mp (Nat.le_zero.mp h)
    subst harr
    simp [quickSortF]
  | succ fuel ih =>
    intro arr h hcoh
    simp only [quickSortF]
    by_cases hlen : arr.length ≤ 1
    · rw [if_pos hlen]
      cases arr with
      | nil => simp
      | cons a l =>
        cases l with
        | nil => simp
        | cons b l' => simp at hlen
    · rw [if_neg hlen]
      have hne : arr ≠ [] := by
        intro hc
        subst hc
        simp at hlen
      have hL := partLeft_length_le arr key .asc
      have hR := partRight_length_le arr key .asc
      have hpmem : arr.getLastD [] ∈ arr := getLastD_mem hne []
      have hRb : ∀ y ∈ quickSortF fuel (partRight arr key .asc) key .asc,
          f (arr.getLastD []) < f y := by
        intro y hy
        have hyR : y ∈ partRight arr key .asc :=
          (quickSortF_perm fuel _ key .asc (by omega)).mem_iff.mp hy
        have hng := not_goesLeft_of_mem_partRight hyR
        have hpos : 0 < compareByKey y (arr.getLastD []) key := by
          simp only [goesLeft, decide_eq_false_iff_not, not_le] at hng
          exact hng
        exact (hcoh y (mem_of_mem_partRight hyR) _ hpmem).pos_iff.mp hpos
      have hLb : ∀ x ∈ quickSortF fuel (partLeft arr key .asc) key .asc,
          f x ≤ f (arr.getLastD []) := by
        intro x hx
        have hxL : x ∈ partLeft arr key .asc :=
          (quickSortF_perm fuel _ key .asc (by omega)).mem_iff.mp hx
        have hgl := goesLeft_of_mem_partLeft hxL
        have hle : compareByKey x (arr.getLastD []) key ≤ 0 := by
          simp only [goesLeft, decide_eq_true_eq] at hgl
          exact hgl
        exact (hcoh x (mem_of_mem_partLeft hxL) _ hpmem).1.mp hle
      rw [List.pairwise_append]
      refine ⟨?_, ?_, ?_⟩
      · exact ih _ (by omega) fun x hx y hy =>
          hcoh x (mem_of_mem_partLeft hx) y (mem_of_mem_partLeft hy)
      · rw [List.pairwise_cons]
        refine ⟨fun y hy => (hRb y hy).le, ?_⟩
        exact ih _ (by omega) fun x hx y hy =>
          hcoh x (mem_of_mem_partRight hx) y (mem_of_mem_partRight hy)
      · intro a ha b hb
        rcases List.mem_cons.mp hb with hb | hb
        · subst hb
          exact hLb a ha
        · exact (hLb a ha).trans (hRb b hb).le

theorem quickSort_sorted {α : Type} [LinearOrder α] (f : Record → α) (key : String)
    (arr : List Record) (hcoh : ∀ x ∈ arr, ∀ y ∈ arr, KeyCoh f key x y) :
    (quickSort arr key .asc).Pairwise (fun x y => f x ≤ f y) :=
  quickSortF_sorted f key arr.length arr le_rfl hcoh

theorem quickSort_of_sorted {α : Type} [LinearOrder α] (f : Record → α) (key : String) :
    ∀ (n : Nat) (L : List Record), L.length ≤ n →
      (∀ x ∈ L, ∀ y ∈ L, KeyCoh f key x y) →
      L.Pairwise (fun x y => f x ≤ f y) →
      quickSort L key .asc = L := by
  intro n
  induction n with
  | zero =>
    intro L h _ _
    exact quickSort_small key .asc (by omega)
  | succ n ih =>
    intro L h hcoh hsort
    by_cases hlen : L.length ≤ 1
    · exact quickSort_small key .asc hlen
    · have hne : L ≠ [] := by
        intro hc
        subst hc
        simp at hlen
      have hdecomp := dropLast_append_getLastD hne []
      have hup : ∀ x ∈ L.dropLast, f x ≤ f (L.getLastD []) := by
        intro x hx
        have hs := hsort
        rw [← hdecomp] at hs
        exact (List.pairwise_append.mp hs).2.2 x hx _ (List.mem_singleton_self _)
      have hall : ∀ x ∈ L.dropLast,
          goesLeft .asc (compareByKey x (L.getLastD []) key) = true := by
        intro x hx
        have hle : compareByKey x (L.getLastD []) key ≤ 0 :=
          (hcoh x (List.mem_of_mem_dropLast hx) _ (getLastD_mem hne [])).1.mpr (hup x hx)
        simp only [goesLeft, decide_eq_true_eq]
        exact hle
      have hPL : partLeft L key .asc = L.dropLast :=
        List.filter_eq_self.mpr hall
      have hPR : partRight L key .asc = [] := by
        refine List.filter_eq_nil_iff.mpr ?_
        intro x hx
        rw [hall x hx]
        simp
      rw [quickSort_unfold key .asc (by omega), hPL, hPR,
        ih L.dropLast (by simp only [List.length_dropLast]; omega)
          (fun x hx y hy =>
            hcoh x (List.mem_of_mem_dropLast hx) y (List.mem_of_mem_dropLast hy))
          (List.Pairwise.sublist (List.dropLast_sublist L) hsort),
        @quickSort_small [] key .asc (by simp)]
      exact hdecomp

/-! Binary search: window arithmetic, fuel-independence, soundness,
and completeness over a rank-sorted list. -/

theorem bsMid_bounds {l r : Int} (h : l ≤ r) : l ≤ bsMid l r ∧ bsMid l r ≤ r := by
  unfold bsMid
  omega

theorem jsIndex_eq_get {L : List Record} {i : Int} (h0 : 0 ≤ i)
    (hlt : i.toNat < L.length) : jsIndex L i = L.get ⟨i.toNat, hlt⟩ := by
  unfold jsIndex
  rw [dif_pos ⟨h0, hlt⟩]

theorem jsIndex_mem {L : List Record} {i : Int} (h0 : 0 ≤ i)
    (hlt : i.toNat < L.length) : jsIndex L i ∈ L := by
  rw [jsIndex_eq_get h0 hlt]
  exact L.get_mem _ _

theorem bsAux_congr (L : List Record) (key : String) (probe : Record) :
    ∀ fuel₁ fuel₂ (left right : Int),
      (right + 1 - left).toNat ≤ fuel₁ → (right + 1 - left).toNat ≤ fuel₂ →
      bsAux L key probe fuel₁ left right = bsAux L key probe fuel₂ left right := by
  intro fuel₁
  induction fuel₁ with
  | zero =>
    intro fuel₂ l r h₁ h₂
    cases fuel₂ with
    | zero => rfl
    | succ fuel₂ =>
      simp only [bsAux]
      rw [if_neg (by omega)]
  | succ fuel₁ ih =>
    intro fuel₂ l r h₁ h₂
    cases fuel₂ with
    | zero =>
      simp only [bsAux]
      rw [if_neg (by omega)]
    | succ fuel₂ =>
      simp only [bsAux]
      by_cases hlr : l ≤ r
      · rw [if_pos hlr, if_pos hlr]
        have hmid := bsMid_bounds hlr
        by_cases h0 : compareByKey (jsIndex L (bsMid l r)) probe key = 0
        · rw [if_pos h0, if_pos h0]
        · rw [if_neg h0, if_neg h0]
          by_cases hneg : compareByKey (jsIndex L (bsMid l r)) probe key < 0
          · rw [if_pos hneg, if_pos hneg]
            exact ih fuel₂ (bsMid l r + 1) r (by omega) (by omega)
          · rw [if_neg hneg, if_neg hneg]
            exact ih fuel₂ l (bsMid l r - 1) (by omega) (by omega)
      · rw [if_neg hlr, if_neg hlr]

theorem bsAux_some (L : List Record) (key : String) (probe : Record) :
    ∀ (fuel : Nat) (left right : Int) (res : Record),
      0 ≤ left → right ≤ (L.length : Int) - 1 →
      bsAux L key probe fuel left right = some res →
      res ∈ L ∧ compareByKey res probe key = 0 := by
  intro fuel
  induction fuel with
  | zero =>
    intro l r res _ _ h
    simp [bsAux] at h
  | succ fuel ih =>
    intro l r res h0 hr h
    simp only [bsAux] at h
    by_cases hlr : l ≤ r
    · rw [if_pos hlr] at h
      have hmid := bsMid_bounds hlr
      have hmid0 : 0 ≤ bsMid l r := by omega
      have hmidlt : (bsMid l r).toNat < L.length := by omega
      by_cases hz : compareByKey (jsIndex L (bsMid l r)) probe key = 0
      · rw [if_pos hz] at h
        have hres : res = jsIndex L (bsMid l r) := by
          injection h with h'
          exact h'.symm
        subst hres
        exact ⟨jsIndex_mem hmid0 hmidlt, hz⟩
      · rw [if_neg hz] at h
        by_cases hneg : compareByKey (jsIndex L (bsMid l r)) probe key < 0
        · rw [if_pos hneg] at h
          exact ih (bsMid l r + 1) r res (by omega) hr h
        · rw [if_neg hneg] at h
          exact ih l (bsMid l r - 1) res h0 (by omega) h
    · rw [if_neg hlr] at h
      cases h

theorem bsAux_none {α : Type} [LinearOrder α] (L : List Record) (key : String)
    (probe : Record) (f : Record → α) (fp : α)
    (hp : ∀ x ∈ L, (compareByKey x probe key = 0 ↔ f x = fp) ∧
                   (compareByKey x probe key < 0 ↔ f x < fp))
    (hs : ∀ i j : Fin L.length, i < j → f (L.get i) ≤ f (L.get j)) :
    ∀ (fuel : Nat) (left right : Int),
      0 ≤ left → right ≤ (L.length : Int) - 1 →
      (right + 1 - left).toNat ≤ fuel →
      (∀ i : Fin L.length, ((i : Nat) : Int) < left → f (L.get i) < fp) →
      (∀ i : Fin L.length, right < ((i : Nat) : Int) → fp < f (L.get i)) →
      bsAux L key probe fuel left right = none →
      ∀ i : Fin L.length, f (L.get i) ≠ fp := by
  intro fuel
  induction fuel with
  | zero =>
    intro l r h0 hr hf hlo hhi _ i
    rcases lt_or_le ((i : Nat) : Int) l with hi | hi
    · exact ne_of_lt (hlo i hi)
    · exact ne_of_gt (hhi i (by omega))
  | succ fuel ih =>
    intro l r h0 hr hf hlo hhi hnone i
    simp only [bsAux] at hnone
    by_cases hlr : l ≤ r
    · rw [if_pos hlr] at hnone
      have hmid := bsMid_bounds hlr
      have hmid0 : 0 ≤ bsMid l r := by omega
      have hmidlt : (bsMid l r).toNat < L.length := by omega
      rw [jsIndex_eq_get hmid0 hmidlt] at hnone
      have hmmem : L.get ⟨(bsMid l r).toNat, hmidlt⟩ ∈ L := L.get_mem _ _
      by_cases hz : compareByKey (L.get ⟨(bsMid l r).toNat, hmidlt⟩) probe key = 0
      · rw [if_pos hz] at hnone
        cases hnone
      · rw [if_neg hz] at hnone
        by_cases hneg : compareByKey (L.get ⟨(bsMid l r).toNat, hmidlt⟩) probe key < 0
        · rw [if_pos hneg] at hnone
          have hfm : f (L.get ⟨(bsMid l r).toNat, hmidlt⟩) < fp :=
            ((hp _ hmmem).2).mp hneg
          refine ih (bsMid l r + 1) r (by omega) hr (by omega) ?_ hhi hnone i
          intro j hj
          rcases lt_or_eq_of_le (show (j : Nat) ≤ (bsMid l r).toNat by omega) with hjm | hjm
          · exact lt_of_le_of_lt (hs j ⟨(bsMid l r).toNat, hmidlt⟩ hjm) hfm
          · have hje : j = ⟨(bsMid l r).toNat, hmidlt⟩ := Fin.ext hjm
            rw [hje]
            exact hfm
        · rw [if_neg hneg] at hnone
          have hfm : fp < f (L.get ⟨(bsMid l r).toNat, hmidlt⟩) := by
            rcases lt_trichotomy (f (L.get ⟨(bsMid l r).toNat, hmidlt⟩)) fp with hlt | heq | hgt
            · exact absurd ((hp _ hmmem).2.mpr hlt) hneg
            · exact absurd ((hp _ hmmem).1.mpr heq) hz
            · exact hgt
          refine ih l (bsMid l r - 1) h0 (by omega) (by omega) hlo ?_ hnone i
          intro j hj
          rcases lt_or_eq_of_le (show (bsMid l r).toNat ≤ (j : Nat) by omega) with hjm | hjm
          · exact lt_of_lt_of_le hfm (hs ⟨(bsMid l r).toNat, hmidlt⟩ j hjm)
          · have hje : (⟨(bsMid l r).toNat, hmidlt⟩ : Fin L.length) = j := Fin.ext hjm
            rw [← hje]
            exact hfm
    · rw [if_neg hlr] at hnone
      rcases lt_or_le ((i : Nat) : Int) l with hi | hi
      · exact ne_of_lt (hlo i hi)
      · exact ne_of_gt (hhi i (by omega))

theorem binarySearch_some {L : List Record} {key : String} {v : Value} {res : Record}
    (h : binarySearch L key v = some res) :
    res ∈ L ∧ compareByKey res (probeOf key v) key = 0 :=
  bsAux_some L key (probeOf key v) (L.length + 1) 0 ((L.length : Int) - 1) res
    (by omega) (by omega) h

theorem binarySearch_none_complete {α : Type} [LinearOrder α] {L : List Record}
    {key : String} {v : Value} (f : Record → α) (fp : α)
    (hp : ∀ x ∈ L, (compareByKey x (probeOf key v) key = 0 ↔ f x = fp) ∧
                   (compareByKey x (probeOf key v) key < 0 ↔ f x < fp))
    (hs : ∀ i j : Fin L.length, i < j → f (L.get i) ≤ f (L.get j))
    (h : binarySearch L key v = none) :
    ∀ i : Fin L.length, f (L.get i) ≠ fp := by
  refine bsAux_none L key (probeOf key v) f fp hp hs (L.length + 1) 0
    ((L.length : Int) - 1) (by omega) (by omega) (by omega) ?_ ?_ h
  · intro i hi
    exact absurd hi (by omega)
  · intro i hi
    have := i.2
    exact absurd hi (by omega)

/-! Heap model: `quickSort` only reads the input array; every array in the
result is a fresh allocation, so all pre-existing arrays are unchanged. -/

theorem Heap.alloc_fst (h : Heap) (c : List Record) : (h.alloc c).1 = h ++ [c] := rfl

theorem Heap.alloc_snd (h : Heap) (c : List Record) : (h.alloc c).2 = h.length := rfl

theorem Heap.read_append_lt {h : Heap} (ext : Heap) {i : Nat} (hi : i < h.length) :
    (h ++ ext).read i = h.read i := by
  unfold Heap.read
  exact List.getD_append h ext [] i hi

theorem Heap.read_snoc (h : Heap) (c : List Record) : (h ++ [c]).read h.length = c := by
  unfold Heap.read
  rw [List.getD_append_right h [c] [] h.length le_rfl]
  simp

theorem quickSortH_spec :
    ∀ (fuel : Nat) (h : Heap) (arrId : Nat) (key : String) (ord : SortOrder),
      (h.read arrId).length ≤ fuel →
      (∀ i, i < h.length → ((quickSortH fuel h arrId key ord).1).read i = h.read i) ∧
      h.length ≤ (quickSortH fuel h arrId key ord).2 ∧
      (quickSortH fuel h arrId key ord).2 < ((quickSortH fuel h arrId key ord).1).length ∧
      ((quickSortH fuel h arrId key ord).1).read (quickSortH fuel h arrId key ord).2
        = quickSort (h.read arrId) key ord := by
  intro fuel
  induction fuel with
  | zero =>
    intro h arrId key ord hfuel
    have hread : h.read arrId = [] := List.length_eq_zero.mp (Nat.le_zero.mp hfuel)
    simp only [quickSortH, Heap.alloc_fst, Heap.alloc_snd]
    refine ⟨fun i hi => Heap.read_append_lt _ hi, le_rfl, by simp, ?_⟩
    rw [Heap.read_snoc, hread, quickSort_small key ord (by simp)]
  | succ fuel ih =>
    intro h arrId key ord hfuel
    by_cases hlen : (h.read arrId).length ≤ 1
    · simp only [quickSortH, Heap.alloc_fst, Heap.alloc_snd]
      rw [if_pos hlen]
      simp only [Heap.alloc_fst, Heap.alloc_snd]
      refine ⟨fun i hi => Heap.read_append_lt _ hi, le_rfl, by simp, ?_⟩
      rw [Heap.read_snoc, quickSort_small key ord hlen]
    · simp only [quickSortH, Heap.alloc_fst, Heap.alloc_snd]
      rw [if_neg hlen]
      simp only [Heap.alloc_fst, Heap.alloc_snd, List.length_append,
        List.length_singleton]
      have h2 : 2 ≤ (h.read arrId).length := by omega
      have hLlen := partLeft_length_le (h.read arrId) key ord
      have hRlen := partRight_length_le (h.read arrId) key ord
      have hreadL : (h ++ [partLeft (h.read arrId) key ord]
            ++ [partRight (h.read arrId) key ord]).read h.length
          = partLeft (h.read arrId) key ord := by
        rw [Heap.read_append_lt _ (by simp), Heap.read_snoc]
      have hreadR : (h ++ [partLeft (h.read arrId) key ord]
            ++ [partRight (h.read arrId) key ord]).read (h.length + 1)
          = partRight (h.read arrId) key ord := by
        have he : h.length + 1 = (h ++ [partLeft (h.read arrId) key ord]).length := by
          simp
        rw [he, Heap.read_snoc]
      obtain ⟨f1, f2, f3, f4⟩ := ih (h ++ [partLeft (h.read arrId) key ord]
          ++ [partRight (h.read arrId) key ord]) h.length key ord
        (by rw [hreadL]; omega)
      rw [hreadL] at f4
      rw [show (h ++ [partLeft (h.read arrId) key ord]
          ++ [partRight (h.read arrId) key ord]).length = h.length + 2 by simp] at f2
      set s₁ := quickSortH fuel (h ++ [partLeft (h.read arrId) key ord]
          ++ [partRight (h.read arrId) key ord]) h.length key ord with hs₁
      have hs₁read : s₁.1.read (h.length + 1) = partRight (h.read arrId) key ord := by
        rw [f1 _ (by simp only [List.length_append, List.length_singleton]; omega), hreadR]
      obtain ⟨g1, g2, g3, g4⟩ := ih s₁.1 (h.length + 1) key ord
        (by rw [hs₁read]; omega)
      rw [hs₁read] at g4
      set s₂ := quickSortH fuel s₁.1 (h.length + 1) key ord with hs₂
      refine ⟨?_, ?_, ?_, ?_⟩
      · intro i hi
        rw [Heap.read_append_lt _ (by omega), g1 i (by omega), f1 i (by simp only [List.length_append, List.length_singleton]; omega),
          Heap.read_append_lt _ (by simp only [List.length_append, List.length_singleton]; omega), Heap.read_append_lt _ hi]
      · omega
      · simp
      · rw [Heap.read_snoc, g1 _ (by omega), f4, g4, quickSort_unfold key ord h2]

/-! Idempotence machinery that tolerates NaN. On an all-number collection
the comparator ties NaN with everything (JS `<` is false on NaN), so a
sorted shape is captured by a partial relation: any two finite values must
be nondecreasing, while pairs involving NaN are unconstrained. -/

/-- Finite values of `x` and `y` under `key` (when both are finite) are
nondecreasing; a pair involving NaN is unconstrained. -/
def finLE (key : String) (x y : Record) : Prop :=
  ∀ a b : Int, getField x key = .num (.fin a) → getField y key = .num (.fin b) →
    a ≤ b

theorem cmp_le_of_finLE {key : String} {x y : Record}
    (hx : (getField x key).isNum = true) (hy : (getField y key).isNum = true)
    (hf : finLE key x y) : compareByKey x y key ≤ 0 := by
  obtain ⟨u, hu⟩ := (isNum_true_iff _).mp hx
  obtain ⟨w, hw⟩ := (isNum_true_iff _).mp hy
  rw [compareByKey_num_num hu hw]
  cases u with
  | nan =>
    rw [numCmp_nan (Or.inl rfl)]
  | fin a =>
    cases w with
    | nan =>
      rw [numCmp_nan (Or.inr rfl)]
    | fin b =>
      rw [numCmp_fin_fin]
      have hab : a ≤ b := hf a b hu hw
      split_ifs <;> omega

theorem cmp_pos_fin {key : String} {x y : Record}
    (hx : (getField x key).isNum = true) (hy : (getField y key).isNum = true)
    (h : 0 < compareByKey x y key) :
    ∃ a b : Int, getField x key = .num (.fin a) ∧
      getField y key = .num (.fin b) ∧ b < a := by
  obtain ⟨u, hu⟩ := (isNum_true_iff _).mp hx
  obtain ⟨w, hw⟩ := (isNum_true_iff _).mp hy
  rw [compareByKey_num_num hu hw] at h
  cases u with
  | nan =>
    rw [numCmp_nan (Or.inl rfl)] at h
    omega
  | fin a =>
    cases w with
    | nan =>
      rw [numCmp_nan (Or.inr rfl)] at h
      omega
    | fin b =>
      rw [numCmp_fin_fin] at h
      split_ifs at h with h1 h2
      · omega
      · exact ⟨a, b, hu, hw, h2⟩
      · omega

theorem cmp_fin_le_le {key : String} {x y : Record} {a b : Int}
    (hx : getField x key = .num (.fin a)) (hy : getField y key = .num (.fin b))
    (h : compareByKey x y key ≤ 0) : a ≤ b := by
  rw [compareByKey_fin_fin hx hy] at h
  exact (intCmp_le_iff a b).mp h

theorem quickSortF_finSorted (key : String) :
    ∀ (fuel : Nat) (arr : List Record), arr.length ≤ fuel →
      (∀ r ∈ arr, (getField r key).isNum = true) →
      (quickSortF fuel arr key .asc).Pairwise (finLE key) := by
  intro fuel
  induction fuel with
  | zero =>
    intro arr h _
    have harr : arr = [] := List.length_eq_zero.mp (Nat.le_zero.mp h)
    subst harr
    simp [quickSortF]
  | succ fuel ih =>
    intro arr h hnum
    simp only [quickSortF]
    by_cases hlen : arr.length ≤ 1
    · rw [if_pos hlen]
      cases arr with
      | nil => simp
      | cons a l =>
        cases l with
        | nil => simp
        | cons b l' => simp at hlen
    · rw [if_neg hlen]
      have hne : arr ≠ [] := by
        intro hc
        subst hc
        simp at hlen
      have hL := partLeft_length_le arr key .asc
      have hR := partRight_length_le arr key .asc
      have hpmem : arr.getLastD [] ∈ arr := getLastD_mem hne []
      have hpnum := hnum _ hpmem
      have hposR : ∀ y ∈ quickSortF fuel (partRight arr key .asc) key .asc,
          ∃ c d : Int, getField y key = .num (.fin c) ∧
            getField (arr.getLastD []) key = .num (.fin d) ∧ d < c := by
        intro y hy
        have hyR : y ∈ partRight arr key .asc :=
          (quickSortF_perm fuel _ key .asc (by omega)).mem_iff.mp hy
        have hng := not_goesLeft_of_mem_partRight hyR
        have hpos : 0 < compareByKey y (arr.getLastD []) key := by
          simp only [goesLeft, decide_eq_false_iff_not, not_le] at hng
          exact hng
        exact cmp_pos_fin (hnum _ (mem_of_mem_partRight hyR)) hpnum hpos
      have hleL : ∀ x ∈ quickSortF fuel (partLeft arr key .asc) key .asc,
          compareByKey x (arr.getLastD []) key ≤ 0 := by
        intro x hx
        have hxL : x ∈ partLeft arr key .asc :=
          (quickSortF_perm fuel _ key .asc (by omega)).mem_iff.mp hx
        have hgl := goesLeft_of_mem_partLeft hxL
        simp only [goesLeft, decide_eq_true_eq] at hgl
        exact hgl
      rw [List.pairwise_append]
      refine ⟨?_, ?_, ?_⟩
      · exact ih _ (by omega) fun r hr => hnum r (mem_of_mem_partLeft hr)
      · rw [List.pairwise_cons]
        refine ⟨?_, ih _ (by omega) fun r hr => hnum r (mem_of_mem_partRight hr)⟩
        intro y hy
        obtain ⟨c, d, hyc, hpd, hdc⟩ := hposR y hy
        intro a b hpa hyb
        rw [hpa] at hpd
        rw [hyb] at hyc
        simp only [Value.num.injEq, JsNum.fin.injEq] at hpd hyc
        omega
      · intro x hx b hb
        have hxle := hleL x hx
        rcases List.mem_cons.mp hb with hb | hb
        · subst hb
          intro va vp hxa hpv
          exact cmp_fin_le_le hxa hpv hxle
        · obtain ⟨c, d, hbc, hpd, hdc⟩ := hposR b hb
          intro va vb hxa hbv
          have hvp : va ≤ d := cmp_fin_le_le hxa hpd hxle
          rw [hbv] at hbc
          simp only [Value.num.injEq, JsNum.fin.injEq] at hbc
          omega

theorem quickSort_of_finSorted (key : String) :
    ∀ (n : Nat) (L : List Record), L.length ≤ n →
      (∀ r ∈ L, (getField r key).isNum = true) →
      L.Pairwise (finLE key) →
      quickSort L key .asc = L := by
  intro n
  induction n with
  | zero =>
    intro L h _ _
    exact quickSort_small key .asc (by omega)
  | succ n ih =>
    intro L h hnum hsort
    by_cases hlen : L.length ≤ 1
    · exact quickSort_small key .asc hlen
    · have hne : L ≠ [] := by
        intro hc
        subst hc
        simp at hlen
      have hdecomp := dropLast_append_getLastD hne []
      have hup : ∀ x ∈ L.dropLast, finLE key x (L.getLastD []) := by
        intro x hx
        have hs := hsort
        rw [← hdecomp] at hs
        exact (List.pairwise_append.mp hs).2.2 x hx _ (List.mem_singleton_self _)
      have hall : ∀ x ∈ L.dropLast,
          goesLeft .asc (compareByKey x (L.getLastD []) key) = true := by
        intro x hx
        have hle : compareByKey x (L.getLastD []) key ≤ 0 :=
          cmp_le_of_finLE (hnum x (List.mem_of_mem_dropLast hx))
            (hnum _ (getLastD_mem hne [])) (hup x hx)
        simp only [goesLeft, decide_eq_true_eq]
        exact hle
      have hPL : partLeft L key .asc = L.dropLast := List.filter_eq_self.mpr hall
      have hPR : partRight L key .asc = [] := by
        refine List.filter_eq_nil_iff.mpr ?_
        intro x hx
        rw [hall x hx]
        simp
      rw [quickSort_unfold key .asc (by omega), hPL, hPR,
        ih L.dropLast (by simp only [List.length_dropLast]; omega)
          (fun r hr => hnum r (List.mem_of_mem_dropLast hr))
          (List.Pairwise.sublist (List.dropLast_sublist L) hsort),
        @quickSort_small [] key .asc (by simp)]
      exact hdecomp

/-! Assembly: search correctness over a kind-homogeneous collection. -/

theorem getField_probeOf (key : String) (v : Value) :
    getField (probeOf key v) key = v := by
  simp [getField, probeOf, List.lookup]

theorem search_correct_rank {α : Type} [LinearOrder α] (f : Record → α)
    (S : List Record) (key : String) (v : Value)
    (hcohS : ∀ x ∈ S, ∀ y ∈ S, KeyCoh f key x y)
    (hcohP : ∀ x ∈ S, KeyCoh f key x (probeOf key v)) :
    (∃ x ∈ S, compareByKey x (probeOf key v) key = 0) →
      ∃ res, binarySearch (quickSort S key .asc) key v = some res ∧
        res ∈ S ∧ compareByKey res (probeOf key v) key = 0 := by
  intro hex
  obtain ⟨x, hxS, hx0⟩ := hex
  cases hbs : binarySearch (quickSort S key .asc) key v with
  | some res =>
    obtain ⟨hm, hc⟩ := binarySearch_some hbs
    exact ⟨res, rfl, mem_quickSort.mp hm, hc⟩
  | none =>
    exfalso
    have hs' : ∀ i j : Fin (quickSort S key .asc).length, i < j →
        f ((quickSort S key .asc).get i) ≤ f ((quickSort S key .asc).get j) := by
      have hp := quickSort_sorted f key S hcohS
      exact fun i j hij => (List.pairwise_iff_get.mp hp) i j hij
    have hp' : ∀ y ∈ quickSort S key .asc,
        (compareByKey y (probeOf key v) key = 0 ↔ f y = f (probeOf key v)) ∧
        (compareByKey y (probeOf key v) key < 0 ↔ f y < f (probeOf key v)) := by
      intro y hy
      have hk := hcohP y (mem_quickSort.mp hy)
      exact ⟨hk.2, hk.lt_iff⟩
    have hnone := binarySearch_none_complete f (f (probeOf key v)) hp' hs' hbs
    have hxS' : x ∈ quickSort S key .asc := mem_quickSort.mpr hxS
    obtain ⟨i, hi⟩ := List.mem_iff_get.mp hxS'
    have hfx : f x = f (probeOf key v) := ((hcohP x hxS).2).mp hx0
    exact hnone i (by rw [hi]; exact hfx)

/-! The claims. -/

/-- C1 (amended): over a collection whose values under `k`, together with
the searched value `v`, are homogeneous in kind and NaN-free (all numbers
other than NaN, or none a number), if some record of `S` is
comparator-equal to `v` then `binarySearch(quickSort(S,k,asc), k, v)`
returns such a record, and if no record is comparator-equal to `v` the
search returns the not-found signal `null` (the absent direction holds for
arbitrary collections). The original unrestricted claim is refuted by
`claim1_search_counterexample`; NaN must also be excluded, since NaN is
comparator-equal to every number yet sorts to an arbitrary position, so a
search can miss it (see the NaN examples above the lemmas). -/
theorem claim1_search_correct (S : List Record) (key : String) (v : Value) :
    ((((∀ r ∈ S, (getField r key).isFinNum = true) ∧ v.isFinNum = true) ∨
      ((∀ r ∈ S, (getField r key).isNum = false) ∧ v.isNum = false)) →
      (∃ x ∈ S, compareByKey x (probeOf key v) key = 0) →
      ∃ res, binarySearch (quickSort S key .asc) key v = some res ∧
        res ∈ S ∧ compareByKey res (probeOf key v) key = 0) ∧
    ((∀ x ∈ S, compareByKey x (probeOf key v) key ≠ 0) →
      binarySearch (quickSort S key .asc) key v = none) := by
  constructor
  · intro hom hex
    rcases hom with ⟨hS, hv⟩ | ⟨hS, hv⟩
    · refine search_correct_rank (numRank key) S key v ?_ ?_ hex
      · exact fun x hx y hy => keyCoh_num (hS x hx) (hS y hy)
      · intro x hx
        refine keyCoh_num (hS x hx) ?_
        rw [getField_probeOf]
        exact hv
    · refine search_correct_rank (textRank key) S key v ?_ ?_ hex
      · exact fun x hx y hy => keyCoh_text (hS x hx)
      · exact fun x hx => keyCoh_text (hS x hx)
  · intro habs
    cases hbs : binarySearch (quickSort S key .asc) key v with
    | none => rfl
    | some res =>
      obtain ⟨hm, hc⟩ := binarySearch_some hbs
      exact absurd hc (habs res (mem_quickSort.mp hm))

/-- C1 counterexample to the original claim: in
`S = [{price: 2}, {price: 10}]` the record `{price: 10}` is
comparator-equal to the string value `"10"` (text fallback), yet searching
the ascending-sorted collection for `"10"` returns the not-found signal:
the records sort numerically but the probe compares textually. -/
theorem claim1_search_counterexample :
    (∃ x ∈ ([[("price", Value.num (JsNum.fin 2))], [("price", Value.num (JsNum.fin 10))]] : List Record),
      compareByKey x (probeOf "price" (.str "10")) "price" = 0) ∧
    binarySearch
      (quickSort [[("price", Value.num (JsNum.fin 2))], [("price", Value.num (JsNum.fin 10))]] "price" .asc)
      "price" (.str "10") = none := by
  decide

theorem claim1_search_witness :
    ∃ res, binarySearch
        (quickSort [[("price", Value.num (JsNum.fin 2))], [("price", Value.num (JsNum.fin 10))]] "price" .asc)
        "price" (.num (.fin 10)) = some res ∧
      res ∈ ([[("price", Value.num (JsNum.fin 2))], [("price", Value.num (JsNum.fin 10))]] : List Record) ∧
      compareByKey res (probeOf "price" (.num (.fin 10))) "price" = 0 :=
  (claim1_search_correct [[("price", Value.num (JsNum.fin 2))], [("price", Value.num (JsNum.fin 10))]]
      "price" (.num (.fin 10))).1 (Or.inl ⟨by decide, rfl⟩)
    ⟨[("price", Value.num (JsNum.fin 10))], by decide, by decide⟩

/-- C2: every pair of adjacent records in `quickSort(S, k, "asc")`
compares `≤ 0`, and in `quickSort(S, k, "desc")` compares `≥ 0`. -/
theorem claim2_ordering_invariant (S : List Record) (key : String) :
    List.Chain' (fun x y => compareByKey x y key ≤ 0) (quickSort S key .asc) ∧
    List.Chain' (fun x y => 0 ≤ compareByKey x y key) (quickSort S key .desc) := by
  constructor
  · refine List.Chain'.imp ?_ (quickSort_chain S key .asc)
    intro a b hab
    simp only [goesLeft, decide_eq_true_eq] at hab
    exact hab
  · refine List.Chain'.imp ?_ (quickSort_chain S key .desc)
    intro a b hab
    simp only [goesLeft, decide_eq_true_eq] at hab
    exact hab

/-- C3: the multiset of records returned by `quickSort(S, k, d)` equals
the multiset of records in `S`, for every key and direction. -/
theorem claim3_permutation_invariant (S : List Record) (key : String)
    (ord : SortOrder) :
    ((quickSort S key ord : List Record) : Multiset Record) = (S : Multiset Record) :=
  Multiset.coe_eq_coe.mpr (quickSort_perm S key ord)

/-- C4: in the heap model, `quickSort` leaves every pre-existing array —
the input in particular — unchanged, and its result is a freshly
allocated array (its id is new) whose contents are the sorted records. -/
theorem claim4_non_mutation (fuel : Nat) (h : Heap) (arrId : Nat) (key : String)
    (ord : SortOrder) (hfuel : (h.read arrId).length ≤ fuel) :
    (∀ i, i < h.length → ((quickSortH fuel h arrId key ord).1).read i = h.read i) ∧
    h.length ≤ (quickSortH fuel h arrId key ord).2 ∧
    (quickSortH fuel h arrId key ord).2 < ((quickSortH fuel h arrId key ord).1).length ∧
    ((quickSortH fuel h arrId key ord).1).read (quickSortH fuel h arrId key ord).2
      = quickSort (h.read arrId) key ord :=
  quickSortH_spec fuel h arrId key ord hfuel

theorem claim4_non_mutation_witness :
    ((quickSortH 2 [[[("price", Value.num (JsNum.fin 2))], [("price", Value.num (JsNum.fin 1))]]]
        0 "price" .asc).1).read 0
      = [[("price", Value.num (JsNum.fin 2))], [("price", Value.num (JsNum.fin 1))]] ∧
    1 ≤ (quickSortH 2 [[[("price", Value.num (JsNum.fin 2))], [("price", Value.num (JsNum.fin 1))]]]
        0 "price" .asc).2 := by
  have h := claim4_non_mutation 2 [[[("price", Value.num (JsNum.fin 2))], [("price", Value.num (JsNum.fin 1))]]]
    0 "price" .asc (by decide)
  exact ⟨(h.1 0 (by decide)).trans (by decide), h.2.1⟩

/-- C5: `compareByKey` returns one of -1/0/1; when both values under the
key are numbers it is the exact arithmetic comparison by the JS `<` on
numbers — the literal code formula, under which every comparison with NaN
is false, so NaN ties — with no epsilon; in every other case it compares
the lowercased text coercions lexicographically by code point, a missing
field reading as `null` and `null` coercing to the empty string. It is a
total function — no case raises. -/
theorem claim5_comparator_contract (a b : Record) (key : String) :
    (compareByKey a b key = -1 ∨ compareByKey a b key = 0 ∨ compareByKey a b key = 1) ∧
    (∀ x y : JsNum, getField a key = .num x → getField b key = .num y →
      compareByKey a b key
        = (if JsNum.lt x y then -1 else if JsNum.lt y x then 1 else 0)) ∧
    (((getField a key).isNum = false ∨ (getField b key).isNum = false) →
      compareByKey a b key =
        (if lexLt (foldedText (getField a key)) (foldedText (getField b key)) then -1
         else if lexLt (foldedText (getField b key)) (foldedText (getField a key)) then 1
         else 0)) ∧
    (∀ k : String, getField [] k = Value.null) ∧ foldedText .null = [] := by
  refine ⟨compareByKey_vals a b key, ?_, compareByKey_text, fun k => rfl, rfl⟩
  intro x y hx hy
  rw [compareByKey_num_num hx hy]

theorem claim5_comparator_contract_witness :
    compareByKey [("price", Value.num (JsNum.fin 3))]
        [("price", Value.num (JsNum.fin 7))] "price"
      = (if JsNum.lt (.fin 3) (.fin 7) then -1
         else if JsNum.lt (.fin 7) (.fin 3) then 1 else 0) ∧
    compareByKey [("name", Value.str "Apple")] [] "name"
        = (if lexLt (foldedText (Value.str "Apple")) (foldedText Value.null) then -1
           else if lexLt (foldedText Value.null) (foldedText (Value.str "Apple")) then 1
           else 0) := by
  constructor
  · exact (claim5_comparator_contract _ _ "price").2.1 (.fin 3) (.fin 7) rfl rfl
  · exact (claim5_comparator_contract [("name", Value.str "Apple")] [] "name").2.2.1
      (Or.inr rfl)

/-- C6 (amended): on a collection whose values under `k` are homogeneous
in kind (all numbers — NaN included — or none a number), sorting an
already-sorted collection reproduces it:
`quickSort(quickSort(S,k,asc),k,asc) = quickSort(S,k,asc)`. The numeric
case does not assume a linear order: NaN ties with everything, and the
argument works with the partial relation `finLE`. The original
unrestricted claim is refuted by `claim6_sort_idempotent_counterexample`. -/
theorem claim6_sort_idempotent (S : List Record) (key : String)
    (hom : (∀ r ∈ S, (getField r key).isNum = true) ∨
           (∀ r ∈ S, (getField r key).isNum = false)) :
    quickSort (quickSort S key .asc) key .asc = quickSort S key .asc := by
  rcases hom with hS | hS
  · refine quickSort_of_finSorted key (quickSort S key .asc).length _ le_rfl ?_ ?_
    · exact fun r hr => hS r (mem_quickSort.mp hr)
    · exact quickSortF_finSorted key S.length S le_rfl hS
  · refine quickSort_of_sorted (textRank key) key (quickSort S key .asc).length _
      le_rfl ?_ ?_
    · exact fun x hx y hy => keyCoh_text (hS x (mem_quickSort.mp hx))
    · exact quickSort_sorted (textRank key) key S
        (fun x hx y hy => keyCoh_text (hS x hx))

/-- C6 counterexample to the original claim: for the mixed-kind collection
`[{price: 10}, {price: "11"}, {price: 2}]` the comparator is not
transitive (10 <ₜ "11" <ₜ 2 textually but 2 < 10 numerically), one sort
gives `[{price:"11"}, {price:2}, {price:10}]` and sorting again gives
`[{price:2}, {price:10}, {price:"11"}]` — not position-by-position equal. -/
theorem claim6_sort_idempotent_counterexample :
    quickSort (quickSort [[("price", Value.num (JsNum.fin 10))], [("price", Value.str "11")],
        [("price", Value.num (JsNum.fin 2))]] "price" .asc) "price" .asc
      ≠ quickSort [[("price", Value.num (JsNum.fin 10))], [("price", Value.str "11")],
        [("price", Value.num (JsNum.fin 2))]] "price" .asc := by
  decide

theorem claim6_sort_idempotent_witness :
    quickSort (quickSort [[("price", Value.num (JsNum.fin 3))], [("price", Value.num (JsNum.fin 1))],
        [("price", Value.num (JsNum.fin 2))]] "price" .asc) "price" .asc
      = quickSort [[("price", Value.num (JsNum.fin 3))], [("price", Value.num (JsNum.fin 1))],
        [("price", Value.num (JsNum.fin 2))]] "price" .asc :=
  claim6_sort_idempotent _ "price" (Or.inl (by decide))

/-- C7: degenerate inputs return without error: the empty and the
one-element array come back as equal copies (in the heap model, as a fresh
allocation with the same contents, the original heap intact), and a
non-array input yields the empty array. -/
theorem claim7_degenerate_inputs :
    (∀ (key : String) (ord : SortOrder), quickSortJS .notArray key ord = []) ∧
    (∀ (key : String) (ord : SortOrder), quickSort [] key ord = []) ∧
    (∀ (x : Record) (key : String) (ord : SortOrder), quickSort [x] key ord = [x]) ∧
    (∀ (h : Heap) (i : Nat) (key : String) (ord : SortOrder),
      (h.read i).length ≤ 1 →
      quickSortH 1 h i key ord = (h ++ [h.read i], h.length)) := by
  refine ⟨fun key ord => rfl, fun key ord => rfl, fun x key ord => rfl, ?_⟩
  intro h i key ord hle
  simp only [quickSortH]
  rw [if_pos hle]
  rfl

theorem claim7_degenerate_inputs_witness :
    quickSortH 1 [[[("price", Value.num (JsNum.fin 5))]]] 0 "price" .asc
      = ([[[("price", Value.num (JsNum.fin 5))]], [[("price", Value.num (JsNum.fin 5))]]], 1) := by
  have h := claim7_degenerate_inputs.2.2.2 [[[("price", Value.num (JsNum.fin 5))]]] 0 "price" .asc
    (by decide)
  rw [h]
  decide

/-- C8: for a `price`/`quantity` search, a value that does not parse as a
number yields the 400 client error and the sort/search are never reached
(the response does not depend on the records); a value that parses as `n`
forwards the number `n` — not the raw text — to the ascending sort and the
binary search. Holds for every parser standing in for JS `Number`. -/
theorem claim8_numeric_search_param (parseNum : String → Option Int)
    (key value : String) (items : List Record)
    (hk : key = "price" ∨ key = "quantity") :
    (parseNum value = none →
      searchProduct parseNum key value items
        = .badRequest (key ++ " must be a number")) ∧
    (∀ n : Int, parseNum value = some n →
      searchProduct parseNum key value items
        = match binarySearch (quickSort items key .asc) key (.num (.fin n)) with
          | none => .notFound "Product not found"
          | some found => .ok found) := by
  constructor
  · intro hn
    rcases hk with hk | hk <;> subst hk <;> simp [searchProduct, validKeys, hn]
  · intro n hn
    rcases hk with hk | hk <;> subst hk <;> simp [searchProduct, validKeys, hn]

theorem claim8_numeric_search_param_witness :
    searchProduct intParse "price" "abc" [] = .badRequest "price must be a number" ∧
    searchProduct intParse "price" "5" [] = .notFound "Product not found" := by
  constructor
  · exact ((claim8_numeric_search_param intParse "price" "abc" [] (Or.inl rfl)).1
      (by decide)).trans (by decide)
  · exact ((claim8_numeric_search_param intParse "price" "5" [] (Or.inl rfl)).2 5
      (by decide)).trans (by decide)

/-- C9: `quickSort` terminates on every input. For an array of length
`n ≥ 2` the two partitions exclude the pivot and their lengths sum to
`n - 1`, each strictly below `n`; accordingly the fuel recursion is stable
(any two sufficient fuels agree). Arrays of length ≤ 1 and non-array
inputs return immediately. -/
theorem claim9_quickSort_termination :
    (∀ (arr : List Record) (key : String) (ord : SortOrder), 2 ≤ arr.length →
      (partLeft arr key ord).length + (partRight arr key ord).length
          = arr.length - 1 ∧
      (partLeft arr key ord).length < arr.length ∧
      (partRight arr key ord).length < arr.length) ∧
    (∀ (fuel₁ fuel₂ : Nat) (arr : List Record) (key : String) (ord : SortOrder),
      arr.length ≤ fuel₁ → arr.length ≤ fuel₂ →
      quickSortF fuel₁ arr key ord = quickSortF fuel₂ arr key ord) ∧
    (∀ (arr : List Record) (key : String) (ord : SortOrder), arr.length ≤ 1 →
      quickSort arr key ord = arr) ∧
    (∀ (key : String) (ord : SortOrder), quickSortJS .notArray key ord = []) := by
  refine ⟨?_, quickSortF_congr, fun arr key ord h => quickSort_small key ord h,
    fun _ _ => rfl⟩
  intro arr key ord h2
  have hsum := partLeft_length_add_partRight_length arr key ord
  have hL := partLeft_length_le arr key ord
  have hR := partRight_length_le arr key ord
  omega

theorem claim9_quickSort_termination_witness :
    ((partLeft [[("price", Value.num (JsNum.fin 2))], [("price", Value.num (JsNum.fin 1))],
        [("price", Value.num (JsNum.fin 3))]] "price" .asc).length
      + (partRight [[("price", Value.num (JsNum.fin 2))], [("price", Value.num (JsNum.fin 1))],
        [("price", Value.num (JsNum.fin 3))]] "price" .asc).length = 2) ∧
    quickSortF 3 [[("price", Value.num (JsNum.fin 2))], [("price", Value.num (JsNum.fin 1))],
        [("price", Value.num (JsNum.fin 3))]] "price" .asc
      = quickSortF 5 [[("price", Value.num (JsNum.fin 2))], [("price", Value.num (JsNum.fin 1))],
        [("price", Value.num (JsNum.fin 3))]] "price" .asc ∧
    quickSort [[("price", Value.num (JsNum.fin 9))]] "price" .desc = [[("price", Value.num (JsNum.fin 9))]] := by
  refine ⟨?_, ?_, ?_⟩
  · exact (claim9_quickSort_termination.1 _ "price" .asc (by decide)).1
  · exact claim9_quickSort_termination.2.1 3 5 _ "price" .asc (by decide) (by decide)
  · exact claim9_quickSort_termination.2.2.1 _ "price" .desc (by decide)

/-- C10: `binarySearch` is safe and total on every input: while the window
`[left, right]` is nonempty (and `left ≥ 0`, `right ≤ length - 1`, as the
loop maintains) the midpoint lies inside the window and in array bounds;
both successor windows are strictly smaller, so the loop terminates (the
fuel recursion is stable above the window size); the empty array returns
`null` without reading an element. -/
theorem claim10_binarySearch_safety :
    (∀ left right : Int, 0 ≤ left → left ≤ right →
      left ≤ bsMid left right ∧ bsMid left right ≤ right) ∧
    (∀ (L : List Record) (left right : Int), 0 ≤ left → left ≤ right →
      right ≤ (L.length : Int) - 1 →
      0 ≤ bsMid left right ∧ (bsMid left right).toNat < L.length) ∧
    (∀ left right : Int, 0 ≤ left → left ≤ right →
      right - bsMid left right < right + 1 - left ∧
      bsMid left right - left < right + 1 - left) ∧
    (∀ (L : List Record) (key : String) (probe : Record) (fuel₁ fuel₂ : Nat)
      (left right : Int),
      (right + 1 - left).toNat ≤ fuel₁ → (right + 1 - left).toNat ≤ fuel₂ →
      bsAux L key probe fuel₁ left right = bsAux L key probe fuel₂ left right) ∧
    (∀ (key : String) (v : Value), binarySearch [] key v = none) := by
  refine ⟨fun l r h0 hlr => bsMid_bounds hlr, ?_, ?_,
    fun L key probe => bsAux_congr L key probe, fun key v => rfl⟩
  · intro L l r h0 hlr hr
    have hb := bsMid_bounds hlr
    omega
  · intro l r h0 hlr
    have hb := bsMid_bounds hlr
    omega

theorem claim10_binarySearch_safety_witness :
    (0 ≤ bsMid 0 3 ∧ bsMid 0 3 ≤ 3) ∧
    bsAux [] "price" (probeOf "price" (.num (.fin 1))) 5 0 3
      = bsAux [] "price" (probeOf "price" (.num (.fin 1))) 9 0 3 ∧
    binarySearch [] "price" (.num (.fin 1)) = none := by
  refine ⟨claim10_binarySearch_safety.1 0 3 (by decide) (by decide), ?_,
    claim10_binarySearch_safety.2.2.2.2 "price" (.num (.fin 1))⟩
  exact claim10_binarySearch_safety.2.2.2.1 [] "price" (probeOf "price" (.num (.fin 1)))
    5 9 0 3 (by decide) (by decide)
